import Mathlib

/-!
Verification of the ttail offset-search engine against its specification.

The development shallowly embeds the Go sources:
* `TimeParser` — internal/parser/time_parser.go (default TSKV pattern and the
  ISO layout "2006-01-02T15:04:05", both the literal fast path and the
  general regex path specialised to the fixed default pattern);
* `LineBuffer` — internal/buffer/line_buffer.go (ReadLine, NextLine,
  FindLastLine, Reset);
* `TimeSearcher` — internal/searcher/time_searcher.go (findLastLineTime,
  findTimeAtOffset, preciseFindTime, FindPosition);
* `TFile` — the legacy engine in ttail.go (readLine, nextLine, findTime,
  preciseFindTime, FindPosition, lastLineTime).

Bytes are modelled as `Char` lists, timestamps as `Int` seconds, and the
byte source as a pure list; `ReadAt` never fails in the model, so the only
error condition is end-of-data, modelled by `Option`/`none`.  Loops carry
explicit fuel (`Nat`), `none` meaning the fuel ran out.
-/

set_option maxRecDepth 100000
set_option maxHeartbeats 2000000

namespace TT

/-- Index of the first occurrence of a character in a list, as Go
bytes.IndexByte (with -1 encoded as none). -/
def idxOf (c : Char) : List Char → Option Nat
  | [] => none
  | a :: as => if a = c then some 0 else (idxOf c as).map (· + 1)

/-- Index of the last occurrence of a character, as Go bytes.LastIndexByte
(-1 encoded as none). -/
def lastIdxOf (c : Char) (l : List Char) : Option Nat :=
  (idxOf c l.reverse).map (fun k => l.length - 1 - k)

/-- Least index i with start ≤ i < start+fuel satisfying p, scanning upward. -/
def findFrom (p : Nat → Bool) : Nat → Nat → Option Nat
  | 0, _ => none
  | fuel + 1, i => if p i then some i else findFrom p fuel (i + 1)

theorem idxOf_eq_none (c : Char) (l : List Char) :
    idxOf c l = none ↔ c ∉ l := by
  induction l with
  | nil => simp [idxOf]
  | cons a as ih =>
    simp only [idxOf, List.mem_cons]
    by_cases h : a = c
    · simp [h]
    · cases hix : idxOf c as with
      | none =>
        have has : c ∉ as := ih.1 hix
        constructor
        · intro _ hor
          rcases hor with hor | hor
          · exact h hor.symm
          · exact has hor
        · intro _
          rw [if_neg h]
          rfl
      | some k =>
        have hc : c ∈ as := by
          by_contra hcn
          rw [ih.mpr hcn] at hix
          cases hix
        simp [h, hix, hc]

theorem idxOf_lt_length (c : Char) (l : List Char) (k : Nat)
    (h : idxOf c l = some k) : k < l.length := by
  induction l generalizing k with
  | nil => simp [idxOf] at h
  | cons a as ih =>
    simp only [idxOf] at h
    by_cases ha : a = c
    · rw [if_pos ha] at h
      injection h with h
      simp only [List.length_cons]
      omega
    · rw [if_neg ha] at h
      cases hix : idxOf c as with
      | none => rw [hix] at h; cases h
      | some j =>
        rw [hix] at h
        injection h with h
        have hk : j + 1 = k := h
        have := ih j hix
        simp only [List.length_cons]
        omega

theorem findFrom_eq_none (p : Nat → Bool) (fuel i : Nat)
    (h : ∀ j, p j = false) : findFrom p fuel i = none := by
  induction fuel generalizing i with
  | zero => rfl
  | succ n ih => simp [findFrom, h, ih]

theorem findFrom_some (p : Nat → Bool) (fuel i k : Nat)
    (h : findFrom p fuel i = some k) : p k = true ∧ i ≤ k := by
  induction fuel generalizing i with
  | zero => simp [findFrom] at h
  | succ n ih =>
    simp only [findFrom] at h
    by_cases hp : p i
    · simp [hp] at h
      exact ⟨h ▸ hp, h ▸ Nat.le_refl i⟩
    · simp [hp] at h
      obtain ⟨hk, hik⟩ := ih (i + 1) h
      exact ⟨hk, by omega⟩

/-! ### Timestamp parsing (internal/parser/time_parser.go)

The default configuration compiles the pattern
tab, "timestamp=", capture of 19 ISO-shaped characters, tab
and the layout "2006-01-02T15:04:05".  `parseISO` models Go's
time.ParseInLocation at this fixed layout applied to a candidate string:
on an exactly-19-character input Go's parser succeeds iff the strict
digit/separator shape holds (a 1-digit hour would leave a trailing
character, which Go rejects as extra text) and the field ranges are valid
(month 1-12, day valid for the month and year, hour 0-23, minute and
second 0-59).  Timestamps are mapped to seconds on the proleptic Gregorian
calendar; only ordering and differences of the results matter. -/

def dv (c : Char) : Nat := c.toNat - 48

def isLeap (y : Nat) : Bool := y % 4 = 0 && (y % 100 ≠ 0 || y % 400 = 0)

def daysInMonth (y m : Nat) : Nat :=
  if m = 2 then (if isLeap y then 29 else 28)
  else if m = 4 ∨ m = 6 ∨ m = 9 ∨ m = 11 then 30
  else 31

/-- Days in months before month m of a non-leap year. -/
def daysBeforeMonth (m : Nat) : Nat :=
  match m with
  | 1 => 0 | 2 => 31 | 3 => 59 | 4 => 90 | 5 => 120 | 6 => 151
  | 7 => 181 | 8 => 212 | 9 => 243 | 10 => 273 | 11 => 304 | _ => 334

def toSecs (y mo d h mi s : Nat) : Int :=
  (((365 * y + (y + 3) / 4 - (y + 99) / 100 + (y + 399) / 400
      + daysBeforeMonth mo + (if 2 < mo ∧ isLeap y then 1 else 0)
      + (d - 1)) * 86400 + h * 3600 + mi * 60 + s : Nat) : Int)

/-- ch at index i of s (padding with a non-digit blank beyond the end). -/
def chAt (s : List Char) (i : Nat) : Char := s.getD i ' '

def digAt (s : List Char) (i : Nat) : Bool := (chAt s i).isDigit

/-- Strict shape dddd-dd-ddTdd:dd:dd of a 19-character candidate; this is
exactly what the capture group of the default pattern enforces. -/
def shapeISO (s : List Char) : Bool :=
  s.length = 19 &&
  digAt s 0 && digAt s 1 && digAt s 2 && digAt s 3 && chAt s 4 = '-' &&
  digAt s 5 && digAt s 6 && chAt s 7 = '-' && digAt s 8 && digAt s 9 &&
  chAt s 10 = 'T' && digAt s 11 && digAt s 12 && chAt s 13 = ':' &&
  digAt s 14 && digAt s 15 && chAt s 16 = ':' && digAt s 17 && digAt s 18

def fieldY (s : List Char) : Nat :=
  ((dv (chAt s 0) * 10 + dv (chAt s 1)) * 10 + dv (chAt s 2)) * 10 + dv (chAt s 3)
def fieldMo (s : List Char) : Nat := dv (chAt s 5) * 10 + dv (chAt s 6)
def fieldD (s : List Char) : Nat := dv (chAt s 8) * 10 + dv (chAt s 9)
def fieldH (s : List Char) : Nat := dv (chAt s 11) * 10 + dv (chAt s 12)
def fieldMi (s : List Char) : Nat := dv (chAt s 14) * 10 + dv (chAt s 15)
def fieldS (s : List Char) : Nat := dv (chAt s 17) * 10 + dv (chAt s 18)

/-- Go time.ParseInLocation for the fixed layout on a candidate string. -/
def parseISO (s : List Char) : Option Int :=
  if shapeISO s then
    let y := fieldY s; let mo := fieldMo s; let d := fieldD s
    if 1 ≤ mo ∧ mo ≤ 12 ∧ 1 ≤ d ∧ d ≤ daysInMonth y mo ∧
        fieldH s ≤ 23 ∧ fieldMi s ≤ 59 ∧ fieldS s ≤ 59 then
      some (toSecs y mo d (fieldH s) (fieldMi s) (fieldS s))
    else none
  else none

/-- The 11-character literal: tab followed by "timestamp=". -/
def tskvKey : List Char := '\t' :: "timestamp=".toList

/-- The key occurs at index i of the line (fully inside it). -/
def keyAt (line : List Char) (i : Nat) : Bool :=
  (line.drop i).take 11 = tskvKey

/-- The full default pattern matches at index i: key, then 19 shaped
characters, then a closing tab. -/
def tskvMatchAt (line : List Char) (i : Nat) : Bool :=
  keyAt line i && shapeISO ((line.drop (i + 11)).take 19) &&
    chAt line (i + 30) = '\t' && i + 30 < line.length

/-- parseTSKVFast, internal/parser/time_parser.go: literal scan for the
first key occurrence, then a fixed-width extraction. -/
def parseTSKVFast (line : List Char) : Option Int :=
  match findFrom (keyAt line) (line.length + 1) 0 with
  | none => none
  | some i =>
    let idx := i + 11
    if idx + 19 > line.length then none
    else if idx + 19 ≥ line.length then none
    else if chAt line (idx + 19) ≠ '\t' then none
    else parseISO ((line.drop idx).take 19)

/-- The general path of ParseTime at the default pattern: the leftmost
regex match (Go regexp returns the leftmost match of this deterministic
fixed-length pattern), then ParseInLocation on the capture. -/
def parseTimeGeneral (line : List Char) : Option Int :=
  match findFrom (tskvMatchAt line) (line.length + 1) 0 with
  | none => none
  | some i => parseISO ((line.drop (i + 11)).take 19)

/-- ParseTime of the default configuration takes the fast path
(isTSKV and isISO both hold for the defaults). -/
def parseTime (line : List Char) : Option Int := parseTSKVFast line

/-! ### LineBuffer (internal/buffer/line_buffer.go)

The byte source is the pure list `file`; ReadAt at offset o into a buffer
of capacity k yields the bytes (file.drop o).take k, and the only read
error is end-of-data (n = 0 iff o ≥ file.length when k > 0). -/

/-- data[a:b] of a Go byte slice. -/
def sub (l : List Char) (a b : Nat) : List Char := (l.drop a).take (b - a)

structure LineBuffer where
  data : List Char
  lineStart : Int
  lineEnd : Nat
  discard : Bool
  bufSize : Nat
  deriving Repr, DecidableEq

/-- NewLineBuffer: the backing slice has length bufSize; its initial
contents are never observed before being overwritten. -/
def LineBuffer.new (bufSize : Nat) : LineBuffer :=
  ⟨List.replicate bufSize ' ', -1, 0, true, bufSize⟩

def LineBuffer.reset (lb : LineBuffer) : LineBuffer :=
  { lb with lineStart := -1, lineEnd := 0, discard := true }

/-- LineBuffer.ReadLine.  On the n = 0 end-of-data path the Go code
leaves the stale buffer contents in place; they are modelled as [] since
every caller abandons the buffer after that error. -/
def LineBuffer.readLine (lb : LineBuffer) (file : List Char) (offset : Nat) :
    Option (List Char) × LineBuffer :=
  let data0 := (file.drop offset).take lb.bufSize
  if data0.length = 0 then
    (none, { lb with data := [], lineStart := -1, lineEnd := 0 })
  else
    let lsOpt : Option Nat :=
      if offset = 0 then some 0
      else
        match idxOf '\n' data0 with
        | some fn => some (fn + 1)
        | none => none
    match lsOpt with
    | none => (none, { lb with data := data0, lineStart := -1, lineEnd := 0, discard := false })
    | some ls =>
      match idxOf '\n' (data0.drop ls) with
      | some cur =>
        let le := ls + cur
        (some (sub data0 ls le),
         { lb with data := data0, lineStart := (ls : Int), lineEnd := le, discard := false })
      | none =>
        let n := data0.length
        if n < lb.bufSize * 4 then
          let data1 := data0 ++ (file.drop (offset + n)).take lb.bufSize
          match idxOf '\n' (data1.drop ls) with
          | some cur =>
            let le := ls + cur
            (some (sub data1 ls le),
             { lb with data := data1, lineStart := (ls : Int), lineEnd := le, discard := false })
          | none =>
            let le := data1.length
            if ls < le then
              (some (sub data1 ls le),
               { lb with data := data1, lineStart := (ls : Int), lineEnd := le, discard := false })
            else
              (none, { lb with data := data1, lineStart := (ls : Int), lineEnd := le, discard := false })
        else
          let le := data0.length
          if ls < le then
            (some (sub data0 ls le),
             { lb with data := data0, lineStart := (ls : Int), lineEnd := le, discard := false })
          else
            (none, { lb with data := data0, lineStart := (ls : Int), lineEnd := le, discard := false })

/-- LineBuffer.NextLine: a next line exists only when the newline index
after the advanced lineStart is strictly positive (cursor > 0). -/
def LineBuffer.nextLine (lb : LineBuffer) : Option (List Char) × LineBuffer :=
  if lb.discard then (none, lb)
  else
    let ls : Nat := lb.lineEnd + 1
    if ls ≥ lb.data.length then (none, { lb with lineStart := (ls : Int) })
    else
      match idxOf '\n' (lb.data.drop ls) with
      | some cur =>
        if cur > 0 then
          (some (sub lb.data ls (ls + cur)),
           { lb with lineStart := (ls : Int), lineEnd := ls + cur })
        else (none, { lb with lineStart := (ls : Int) })
      | none => (none, { lb with lineStart := (ls : Int) })

/-- LineBuffer.FindLastLine: one window at the offset (into the backing
slice, whose length is bufSize on every reachable call). -/
def LineBuffer.findLastLine (lb : LineBuffer) (file : List Char) (offset : Nat) :
    Option (List Char) × LineBuffer :=
  let w := (file.drop offset).take lb.data.length
  if w.length = 0 then (none, lb)
  else
    match lastIdxOf '\n' w with
    | none => (none, lb)
    | some ln =>
      if ln = 0 then (none, lb)
      else
        let ls : Nat :=
          match lastIdxOf '\n' (w.take ln) with
          | none => 0
          | some sn => sn + 1
        let lb1 := { lb with lineStart := (ls : Int), lineEnd := ln }
        if ls < ln then (some (sub w ls ln), lb1) else (none, lb1)

/-! Sanity checks mirroring TestLineBuffer_ReadLine / NextLine /
FindLastLine from internal/buffer/line_buffer_test.go. -/

example :
    (LineBuffer.readLine (LineBuffer.new 1024)
      ("first line\nsecond line\nthird line\n").toList 0).1 =
      some ("first line").toList := by decide

example :
    (LineBuffer.readLine (LineBuffer.new 1024)
      ("first line\nsecond line\nthird line\n").toList 10).1 =
      some ("second line").toList := by decide

example :
    (LineBuffer.readLine (LineBuffer.new 50)
      ("very long line that exceeds buffer size\nshort\n").toList 0).1 =
      some ("very long line that exceeds buffer size").toList := by decide

example :
    (LineBuffer.nextLine
      (LineBuffer.readLine (LineBuffer.new 1024)
        ("first line\nsecond line\nthird line\n").toList 0).2).1 =
      some ("second line").toList := by decide

example :
    (LineBuffer.findLastLine (LineBuffer.new 1024)
      ("first line\nsecond line\nthird line\npartial").toList 0).1 =
      some ("third line").toList := by decide

example :
    (LineBuffer.findLastLine (LineBuffer.new 1024)
      ("only line\n").toList 0).1 = some ("only line").toList := by decide

example :
    (LineBuffer.findLastLine (LineBuffer.new 1024)
      ("no newlines here").toList 0).1 = none := by decide

/-! ### TimeSearcher (internal/searcher/time_searcher.go)

The timestamp extractor is a field of the searcher; it is modelled by an
arbitrary function parse : List Char → Option Int (absent timestamps and
failed layout parses are both none, as in TimeParser.ParseTime).  Loops
carry fuel; `none` from a fueled function means the fuel ran out. -/

structure SearchOpts where
  duration : Int
  bufSize : Nat
  stepsLimit : Nat
  timeFromLastLine : Bool
  parse : List Char → Option Int

def defaultOpts : SearchOpts :=
  { duration := 0, bufSize := 16384, stepsLimit := 1024,
    timeFromLastLine := false, parse := parseTime }

/-- Offset hop of findLastLineTime: move to the previous buffer position. -/
def hopBack (o : SearchOpts) (offset : Int) : Int :=
  if 0 < offset ∧ offset < (o.bufSize : Int) then 0 else offset - (o.bufSize : Int)

/-- TimeSearcher.findLastLineTime: bounded backward hops, each probing one
window with FindLastLine.  Returns the first parsed timestamp together
with the offset at which it was found, or none when the step budget is
exhausted or the offset runs off the front of the file.  The buffer's
cursor mutations are dead here (every later read overwrites them), so the
loop does not return the buffer. -/
def findLastLineTimeLoop (file : List Char) (o : SearchOpts) :
    Int → Nat → Option (Int × Int)
  | _, 0 => none
  | offset, step + 1 =>
    if offset < 0 then none
    else
      let r := (LineBuffer.new o.bufSize).findLastLine file offset.toNat
      match r.1 with
      | some line =>
        match o.parse line with
        | some tm => some (tm, offset)
        | none => findLastLineTimeLoop file o (hopBack o offset) step
      | none => findLastLineTimeLoop file o (hopBack o offset) step

def findLastLineTime (file : List Char) (o : SearchOpts) : Option (Int × Int) :=
  let size : Int := file.length
  let start : Int := if size - (o.bufSize : Int) < 0 then 0 else size - (o.bufSize : Int)
  findLastLineTimeLoop file o start o.stepsLimit

/-- TimeSearcher.findTimeAtOffset: first parseable timestamp scanning
forward from the offset; some none signals end-of-data reached first.
The incoming buffer is irrelevant (the first ReadLine overwrites it), so
a fresh buffer of the configured size stands for it. -/
def findTimeAtOffsetLoop (file : List Char) (o : SearchOpts) :
    Nat → Nat → LineBuffer → Option (Option Int)
  | 0, _, _ => none
  | fuel + 1, off, lb =>
    let r := lb.readLine file off
    let lb1 := r.2
    match r.1 with
    | none => some none
    | some line =>
      if line.length = 0 then
        findTimeAtOffsetLoop file o fuel (off + lb1.lineEnd) lb1
      else
        match o.parse line with
        | some tm => some (some tm)
        | none =>
          let rn := lb1.nextLine
          let lb2 := rn.2
          match rn.1 with
          | some l2 =>
            if 0 < l2.length then
              match o.parse l2 with
              | some tm => some (some tm)
              | none => findTimeAtOffsetLoop file o fuel (off + lb2.lineEnd) lb2
            else findTimeAtOffsetLoop file o fuel (off + lb2.lineEnd) lb2
          | none => findTimeAtOffsetLoop file o fuel (off + lb2.lineEnd) lb2

def findTimeAtOffset (file : List Char) (o : SearchOpts) (fuel off : Nat) :
    Option (Option Int) :=
  findTimeAtOffsetLoop file o fuel off (LineBuffer.new o.bufSize)

/-- Outcome of preciseFindTime: the line satisfying the window was found,
or end-of-data was reached; both carry the searcher offset and buffer at
that point (FindPosition adds lineStart in both cases). -/
inductive PreciseOut where
  | found (off : Nat) (lb : LineBuffer)
  | eod (off : Nat) (lb : LineBuffer)
  deriving Repr, DecidableEq

/-- TimeSearcher.preciseFindTime: NextLine within the buffer, re-anchoring
with ReadLine at offset + lineEnd on end-of-buffer, stopping at the first
line whose timestamp tm satisfies fromTime - tm ≤ duration. -/
def preciseLoop (file : List Char) (o : SearchOpts) (fromTime : Int) :
    Nat → Nat → LineBuffer → Option PreciseOut
  | 0, _, _ => none
  | fuel + 1, off, lb =>
    let rn := lb.nextLine
    let lb1 := rn.2
    match rn.1 with
    | some line =>
      match o.parse line with
      | some tm =>
        if fromTime - tm ≤ o.duration then some (.found off lb1)
        else preciseLoop file o fromTime fuel off lb1
      | none => preciseLoop file o fromTime fuel off lb1
    | none =>
      let off2 := off + lb1.lineEnd
      let rr := lb1.readLine file off2
      let lb2 := rr.2
      match rr.1 with
      | none => some (.eod off2 lb2)
      | some line =>
        match o.parse line with
        | some tm =>
          if fromTime - tm ≤ o.duration then some (.found off2 lb2)
          else preciseLoop file o fromTime fuel off2 lb2
        | none => preciseLoop file o fromTime fuel off2 lb2

/-- Coarse binary-search loop of TimeSearcher.FindPosition.
some none: a probe hit end-of-data (the code then succeeds with offset 0);
some (some up): converged with down - up ≤ bufSize. -/
def coarseLoop (file : List Char) (o : SearchOpts) (fromTime : Int) :
    Nat → Nat → Nat → Option (Option Nat)
  | 0, _, _ => none
  | fuel + 1, up, down =>
    if (o.bufSize : Int) < (down : Int) - (up : Int) then
      let mid := up + (down - up) / 2
      match findTimeAtOffset file o (fuel + 1) mid with
      | none => none
      | some none => some none
      | some (some tm) =>
        if tm < fromTime then coarseLoop file o fromTime fuel mid down
        else coarseLoop file o fromTime fuel up mid
    else some (some up)

/-- The searcher's offset field starts at the Go zero value. -/
def searcherInitOffset : Int := 0

/-- TimeSearcher.FindPosition.  wallTime models time.Now() for the
non-timeFromLastLine mode.  The pure byte source never raises I/O errors,
so every terminating run returns nil with a stored offset: some r models
"returned success with ts.offset = r"; none means the fuel ran out. -/
def FindPosition (file : List Char) (o : SearchOpts) (wallTime : Int)
    (fuel : Nat) : Option Int :=
  let size := file.length
  if size = 0 then some 0
  else
    let fromTimeOpt : Option Int :=
      if o.timeFromLastLine then
        match findLastLineTime file o with
        | some (t, _) => some (t - o.duration)
        | none => none
      else some (wallTime - o.duration)
    match fromTimeOpt with
    | none => some 0
    | some fromTime =>
      match coarseLoop file o fromTime fuel 0 size with
      | none => none
      | some none => some 0
      | some (some up) =>
        match preciseLoop file o fromTime fuel up
            ((LineBuffer.new o.bufSize).reset) with
        | none => none
        | some (.found off lb) => some ((off : Int) + lb.lineStart)
        | some (.eod off lb) => some ((off : Int) + lb.lineStart)

/-! ### Specification-worded coarse loop (comparison definition for the
end-of-data convergence claim)

The specification states that when a coarse probe reaches end-of-data the
locator converges the upper bound down to mid and continues the search.
`coarseLoopSpec` and `FindPositionSpec` follow those words; they exist
solely to be compared with the code's behaviour. -/

def coarseLoopSpec (file : List Char) (o : SearchOpts) (fromTime : Int) :
    Nat → Nat → Nat → Option Nat
  | 0, _, _ => none
  | fuel + 1, up, down =>
    if (o.bufSize : Int) < (down : Int) - (up : Int) then
      let mid := up + (down - up) / 2
      match findTimeAtOffset file o (fuel + 1) mid with
      | none => none
      | some none => coarseLoopSpec file o fromTime fuel up mid
      | some (some tm) =>
        if tm < fromTime then coarseLoopSpec file o fromTime fuel mid down
        else coarseLoopSpec file o fromTime fuel up mid
    else some up

/-- FindPosition as worded by the specification step 3 (end-of-data while
probing converges high to mid); all other phases as in the code. -/
def FindPositionSpec (file : List Char) (o : SearchOpts) (wallTime : Int)
    (fuel : Nat) : Option Int :=
  let size := file.length
  if size = 0 then some 0
  else
    let fromTimeOpt : Option Int :=
      if o.timeFromLastLine then
        match findLastLineTime file o with
        | some (t, _) => some (t - o.duration)
        | none => none
      else some (wallTime - o.duration)
    match fromTimeOpt with
    | none => some 0
    | some fromTime =>
      match coarseLoopSpec file o fromTime fuel 0 size with
      | none => none
      | some up =>
        match preciseLoop file o fromTime fuel up
            ((LineBuffer.new o.bufSize).reset) with
        | none => none
        | some (.found off lb) => some ((off : Int) + lb.lineStart)
        | some (.eod off lb) => some ((off : Int) + lb.lineStart)

/-! ### Legacy engine (ttail.go)

The older TFile implementation with its fixed defaults: 16 KiB windows, a
1024-hop steps limit, the default TSKV pattern applied through the
regular-expression path (FindSubmatch, then time.ParseInLocation whose
error is surfaced by findTime).  All loops carry fuel. -/

def tfBufSize : Nat := 16384
def tfStepsLimit : Nat := 1024

/-- FindSubmatch at the default pattern: the capture of the leftmost
match. -/
def legacyMatch (line : List Char) : Option (List Char) :=
  match findFrom (tskvMatchAt line) (line.length + 1) 0 with
  | none => none
  | some i => some ((line.drop (i + 11)).take 19)

structure TBuf where
  b : List Char
  lineStart : Int
  lineEnd : Nat
  discard : Bool
  deriving Repr, DecidableEq

def resetTBuf : TBuf := ⟨[], -1, 0, true⟩

/-- Loop body of TFile.readLine.  Arguments: fuel, the object's offset
field, the buffer slice and its Go length, lineStart, lineEnd, and
whether the last cursor was negative (so the next iteration reads).
The Go slice length bLen is carried separately so that the untouched
initial window and the zero padding appended before a read (both dead:
they are truncated away or overwritten before any inspection) need not
be materialised; b always holds exactly the live bytes, and bLen equals
the Go len(b), which coincides with b.length whenever it is inspected.
Returns the line and the updated offset and buffer; the Go function's
error result is always nil.  At end-of-data the loop never exits (reads
return zero bytes and the buffer is re-extended forever), which fuel
exhaustion reflects. -/
def tfReadLineLoop (file : List Char) :
    Nat → Nat → List Char → Nat → Int → Nat → Bool →
    Option (List Char × Nat × List Char × Int × Nat)
  | 0, _, _, _, _, _, _ => none
  | fuel + 1, off, b, bLen, ls, le, curNeg =>
    let offset := off + le
    let st : Nat × List Char × Int :=
      if curNeg then
        let chunk := (file.drop offset).take (bLen - le)
        (offset, b.take le ++ chunk, if offset = 0 then (0 : Int) else ls)
      else (off, b, ls)
    let off1 := st.1
    let b1 := st.2.1
    let ls1 := st.2.2
    match idxOf '\n' (b1.drop le) with
    | some c =>
      if ls1 < 0 then
        tfReadLineLoop file fuel off1 b1 b1.length ((le + c + 1 : Nat) : Int) (le + c + 1) false
      else
        some (sub b1 ls1.toNat (ls1.toNat + c), off1, b1, ls1, ls1.toNat + c)
    | none =>
      let le1 := b1.length
      if tfBufSize * 4 ≤ le1 then some ([], off1, b1, 0, 0)
      else tfReadLineLoop file fuel off1 b1 (le1 + tfBufSize) ls1 le1 true

/-- TFile.readLine.  The incoming buffer contents are dead (the first
iteration always reads over the full window), so only the window size is
passed in. -/
def tfReadLine (file : List Char) (off : Nat) (fuel : Nat) :
    Option (List Char × Nat × TBuf) :=
  (tfReadLineLoop file fuel off [] tfBufSize (-1) 0 true).map
    (fun r => (r.1, r.2.1, ⟨r.2.2.1, r.2.2.2.1, r.2.2.2.2, false⟩))

/-- TFile.nextLine (no bounds check before slicing; reachable states keep
lineStart within the buffer). -/
def tfNextLine (tb : TBuf) : Option (List Char) × TBuf :=
  if tb.discard then (none, tb)
  else
    let ls := tb.lineEnd + 1
    match idxOf '\n' (tb.b.drop ls) with
    | some c =>
      if 0 < c then
        (some (sub tb.b ls (ls + c)), { tb with lineStart := (ls : Int), lineEnd := ls + c })
      else (none, { tb with lineStart := (ls : Int) })
    | none => (none, { tb with lineStart := (ls : Int) })

/-- Outcome of TFile.findTime: a parsed timestamp, or the wrapped
time.ParseInLocation error that the loop surfaces when a matched capture
fails to parse. -/
inductive TFindOut where
  | found (tm : Int) (off : Nat) (tb : TBuf)
  | parseErr (off : Nat) (tb : TBuf)
  deriving Repr, DecidableEq

def tfFindTimeLoop (file : List Char) :
    Nat → List Char × Nat × TBuf → Option TFindOut
  | 0, _ => none
  | fuel + 1, (line, off, tb) =>
    let next : Option (List Char × Nat × TBuf) :=
      if line.length = 0 then tfReadLine file (off + tb.lineEnd) fuel
      else some (line, off, tb)
    match next with
    | none => none
    | some (l2, o2, t2) =>
      match legacyMatch l2 with
      | some cap =>
        match parseISO cap with
        | some tm => some (.found tm o2 t2)
        | none => some (.parseErr o2 t2)
      | none => tfFindTimeLoop file fuel (l2, o2, t2)

def tfFindTime (file : List Char) (off : Nat) (fuel : Nat) : Option TFindOut :=
  match tfReadLine file off fuel with
  | none => none
  | some r => tfFindTimeLoop file fuel r

/-- TFile.preciseFindTime: parse failures are swallowed here (err is
reset to nil and the loop continues); the loop stops only at a line
within the window. -/
def tfPreciseLoop (file : List Char) (fromTime dur : Int) :
    Nat → Nat → TBuf → Option (Nat × TBuf)
  | 0, _, _ => none
  | fuel + 1, off, tb =>
    let rn := tfNextLine tb
    let step : Option (List Char × Nat × TBuf) :=
      match rn.1 with
      | some l => some (l, off, rn.2)
      | none => tfReadLine file (off + rn.2.lineEnd) fuel
    match step with
    | none => none
    | some (l, o2, b2) =>
      match legacyMatch l with
      | some cap =>
        match parseISO cap with
        | none => tfPreciseLoop file fromTime dur fuel o2 b2
        | some tm =>
          if fromTime - tm ≤ dur then some (o2, b2)
          else tfPreciseLoop file fromTime dur fuel o2 b2
      | none => tfPreciseLoop file fromTime dur fuel o2 b2

inductive TFPOut where
  | ok (offset : Int)
  | err
  deriving Repr, DecidableEq

/-- Coarse loop of TFile.FindPosition; some none records that findTime's
error (a wrapped parse error) was returned to the caller. -/
def tfCoarseLoop (file : List Char) (fromTime dur : Int) :
    Nat → Nat → Nat → Option (Option Nat)
  | 0, _, _ => none
  | fuel + 1, up, down =>
    if (tfBufSize : Int) < (down : Int) - (up : Int) then
      let mid := up + (down - up) / 2
      match tfFindTime file mid (fuel + 1) with
      | none => none
      | some (.parseErr _ _) => some none
      | some (.found tm _ _) =>
        if dur < fromTime - tm then tfCoarseLoop file fromTime dur fuel mid down
        else tfCoarseLoop file fromTime dur fuel up mid
    else some (some up)

/-- TFile.FindPosition after the reference time is fixed (wall clock or
last-line time). -/
def tfFindPositionCore (file : List Char) (fromTime dur : Int) (fuel : Nat) :
    Option TFPOut :=
  match tfCoarseLoop file fromTime dur fuel 0 file.length with
  | none => none
  | some none => some .err
  | some (some up) =>
    match tfPreciseLoop file fromTime dur fuel up resetTBuf with
    | none => none
    | some (o2, b2) => some (.ok ((o2 : Int) + b2.lineStart))

/-- One iteration of the inner backward scan of TFile.lastLineTime over a
loaded window: locate the previous newline pair; none = break out of the
loop, some (some tm, _) = timestamp found, some (none, ls2) = no
timestamp on this line (including a parse failure of a matched capture,
whose zero time fails the IsZero test), continue from ls2. -/
def tfLastLineStep (window : List Char) (ls : Nat) : Option (Option Int × Nat) :=
  match lastIdxOf '\n' (window.take ls) with
  | none => none
  | some le =>
    match lastIdxOf '\n' (window.take le) with
    | none => none
    | some sn =>
      let ls2 := if 0 < sn then sn + 1 else sn
      let line := sub window ls2 le
      match legacyMatch line with
      | some cap =>
        match parseISO cap with
        | some tm => some (some tm, ls2)
        | none => some (none, ls2)
      | none => some (none, ls2)

/-- Inner backward scan of TFile.lastLineTime: iterate tfLastLineStep. -/
def tfLastLineInner (window : List Char) : Nat → Nat → Option Int
  | 0, _ => none
  | fuel + 1, ls =>
    match tfLastLineStep window ls with
    | none => none
    | some (some tm, _) => some tm
    | some (none, ls2) => tfLastLineInner window fuel ls2

/-- Outer loop of TFile.lastLineTime: windows walked backward, at most
stepsLimit of them; returns the found time and the offset at which it was
found, or none for the zero time (budget exhausted or front reached). -/
def tfLastLineLoop (file : List Char) : Int → Nat → Option (Int × Int)
  | _, 0 => none
  | offset, step + 1 =>
    if offset < 0 then none
    else
      let window := (file.drop offset.toNat).take tfBufSize
      match tfLastLineInner window (window.length + 2) window.length with
      | some tm => some (tm, offset)
      | none =>
        let offset1 :=
          if 0 < offset ∧ offset < (tfBufSize : Int) then (tfBufSize : Int) else offset
        tfLastLineLoop file (offset1 - (tfBufSize : Int)) step

def tfLastLineTime (file : List Char) : Option (Int × Int) :=
  let start : Int :=
    if (file.length : Int) - (tfBufSize : Int) < 0 then 0
    else (file.length : Int) - (tfBufSize : Int)
  tfLastLineLoop file start tfStepsLimit

/-- TFile.FindPosition with timeFromLastLine = true: a zero last-line
time degrades to offset 0 and success. -/
def tfFindPositionLast (file : List Char) (dur : Int) (fuel : Nat) :
    Option TFPOut :=
  match tfLastLineTime file with
  | none => some (.ok 0)
  | some (tm, _) => tfFindPositionCore file tm dur fuel

/-! ### Derived helpers and concrete inputs used by the theorems -/

/-- The composite legacy extractor: FindSubmatch then ParseInLocation,
collapsing "no match" and "parse failed" (both leave the loop without a
time; findTime distinguishes them, lastLineTime and precise do not). -/
def legacyParse (l : List Char) : Option Int :=
  match legacyMatch l with
  | some cap => parseISO cap
  | none => none

def TFindOut.isParseErr : TFindOut → Bool
  | .parseErr _ _ => true
  | _ => false

def PreciseOut.offv : PreciseOut → Nat
  | .found o _ => o
  | .eod o _ => o

def PreciseOut.bufv : PreciseOut → LineBuffer
  | .found _ b => b
  | .eod _ b => b

/-- A full default-format line: tab, key, stamp, tab, newline (32 bytes). -/
def lineOf (stamp : String) : String := "\ttimestamp=" ++ stamp ++ "\t\n"

/-- A default-format line with a payload after the stamp. -/
def msgLine (stamp msg : String) : String :=
  "\ttimestamp=" ++ stamp ++ "\t" ++ msg ++ "\n"

def junkLines (n : Nat) : String := String.join (List.replicate n "zzzzzzz\n")

def tRef : Int := (parseISO ("2023-12-25T10:00:00").toList).getD 0

/-- Unsorted file for the tie-break counterexample: a tie line first, two
older lines, a tie line last (reference time taken from the last line). -/
def fileC1 : List Char :=
  (lineOf "2023-12-25T10:00:00" ++ lineOf "2023-12-25T09:58:20" ++
   lineOf "2023-12-25T09:58:20" ++ lineOf "2023-12-25T10:00:00").toList

def optsC1 : SearchOpts :=
  { duration := 0, bufSize := 48, stepsLimit := 1024,
    timeFromLastLine := true, parse := parseTime }

/-- One timestamped line near the start, then junk to end-of-file: every
coarse probe scans forward into the junk and hits end-of-data. -/
def fileC2 : List Char :=
  ("jjjjj\n" ++ msgLine "2023-12-25T10:00:00" "m=x" ++ junkLines 10).toList

def optsC2 : SearchOpts :=
  { duration := 0, bufSize := 16, stepsLimit := 1024,
    timeFromLastLine := false, parse := parseTime }

def tC2 : Int := tRef

/-- Sorted three-line file with ages D+1, D, D-... around duration 1. -/
def fileTie : List Char :=
  (lineOf "2023-12-25T09:59:59" ++ lineOf "2023-12-25T10:00:00" ++
   lineOf "2023-12-25T10:00:01").toList

def tTie : Int := (parseISO ("2023-12-25T10:00:01").toList).getD 0

/-- Modern-engine configuration for the boundary file: duration 1, a
48-byte window (one coarse probe on the 96-byte file), wall-clock
reference time. -/
def optsTie : SearchOpts :=
  { duration := 1, bufSize := 48, stepsLimit := 1024,
    timeFromLastLine := false, parse := parseTime }

/-- A line whose capture matches the pattern but fails layout parsing
(month 13). -/
def fileBad : List Char := (msgLine "2023-13-01T00:00:00" "m").toList

/-- The malformed line followed by a well-formed one. -/
def fileBadPair : List Char :=
  (msgLine "2023-13-01T00:00:00" "m" ++ msgLine "2023-12-25T10:00:00" "m").toList

def optsBad : SearchOpts :=
  { duration := 0, bufSize := 256, stepsLimit := 1024,
    timeFromLastLine := false, parse := parseTime }

/-- A file with no timestamps at all (no tab byte anywhere). -/
def fileJunk : List Char := (junkLines 4).toList

def optsJunk : SearchOpts :=
  { duration := 5, bufSize := 16, stepsLimit := 8,
    timeFromLastLine := true, parse := parseTime }

/-- The buffer state that the searcher's precise loop cycles through on
the one-byte file consisting of a single newline. -/
def bufNL : LineBuffer := ⟨['\n'], 0, 0, false, 16384⟩

/-- Witness inputs for the range theorem. -/
def fileC6W : List Char := (msgLine "2023-12-25T10:00:00" "m").toList

def optsC6W : SearchOpts :=
  { duration := 0, bufSize := 64, stepsLimit := 4,
    timeFromLastLine := false, parse := parseTime }

/-- A line with two key occurrences: the first is junk, the second is a
well-formed stamp, so the regex matches where the literal scan gave up. -/
def lineC9 : List Char :=
  ("\ttimestamp=x\ttimestamp=2023-12-25T10:00:00\tk").toList

/-- A line with a single key occurrence, for the amended equivalence. -/
def lineC9W : List Char := ("\ttimestamp=2023-12-25T10:00:00\tk").toList

/-- Concrete buffer hit by the next-line-after-blank-line behaviour:
line "a" just isolated, a blank line follows, then a complete line. -/
def lbC10 : LineBuffer := ⟨("a\n\nbb\n").toList, 0, 1, false, 16⟩

/-- No-newline input for the growth counterexample. -/
def fileC7 : List Char := List.replicate 16 'a'

/-! ## Theorems -/

/-- C1, counterexample.  With window size 48, duration 0 and the
reference time taken from the last line, the reference time is the stamp
of the last line (found at hop offset 80); the first line of the file
carries exactly that stamp, so it is exactly D old (T - t = 0 = D), yet
FindPosition converges to offset 96, well after that line's start at 0:
on this (unsorted) file the claim fails. -/
theorem c1_counterexample :
    FindPosition fileC1 optsC1 0 12 = some 96 ∧
    optsC1.parse (sub fileC1 0 31) = some tRef ∧
    findLastLineTime fileC1 optsC1 = some (tRef, 80) ∧
    ¬ ((96 : Int) ≤ 0) := by decide

/-- C2, counterexample.  On fileC2 the first coarse probe (mid = 60)
scans into the trailing junk and reaches end-of-data; the code then
abandons the search and succeeds with offset 0, whereas the
specification-worded locator (high := mid, continue) converges and
refines to offset 6, the start of the timestamped line. -/
theorem c2_counterexample :
    FindPosition fileC2 optsC2 tC2 40 = some 0 ∧
    FindPositionSpec fileC2 optsC2 tC2 40 = some 6 ∧
    ((6 : Int) ≠ 0) := by decide

/-- C4.  The modern extractor returns absent (not an error) on the
malformed-stamp line and the searcher's forward scan skips it and finds
the next valid timestamp; but the legacy TFile.findTime surfaces the
parse failure of the matched capture as an error (which FindPosition's
coarse loop would return to the caller), contradicting the claim that
per-line parse misses never abort the search. -/
theorem c4_parse_miss_divergence :
    (tfFindTime fileBad 0 6).map TFindOut.isParseErr = some true ∧
    parseTime (sub fileBad 0 33) = none ∧
    (legacyMatch (sub fileBad 0 33)).isSome = true ∧
    findTimeAtOffset fileBadPair optsBad 6 0 = some (some tRef) := by decide

/-- C7, counterexample.  ReadLine on a newline-free 16-byte input with a
4-byte window returns after a single window-sized growth: 8 bytes, not
the 16 bytes that growth up to the 4-window cap would produce. -/
theorem c7_counterexample :
    ((LineBuffer.new 4).readLine fileC7 0).1 = some (List.replicate 8 'a') ∧
    (List.replicate 8 'a').length ≠ min fileC7.length (4 * 4) := by decide

/-- C8, counterexample.  A window holding exactly one newline (at a
positive index) does not yield EndOfData: FindLastLine returns the bytes
before that newline, treating the window start as the line start. -/
theorem c8_counterexample :
    ((LineBuffer.new 1024).findLastLine ("ab\n").toList 0).1 =
      some ("ab").toList ∧
    ("ab\n").toList.count '\n' = 1 := by decide

/-- C9, counterexample.  On a line whose first key occurrence is not
followed by a well-formed stamp while a later one is, the literal fast
path returns absent but the general regex path finds the timestamp. -/
theorem c9_counterexample :
    parseTSKVFast lineC9 = none ∧ parseTimeGeneral lineC9 = some tRef := by
  decide

/-- C10.  When the byte right after the previous line's terminating
newline is itself a newline (an empty line), NextLine returns EndOfData
even though a further newline — hence a complete line — remains in the
loaded bytes, because the cursor after the advanced lineStart must be
strictly positive. -/
theorem c10_next_line_empty_eod (lb : LineBuffer) (k : Nat)
    (hd : lb.discard = false)
    (hlt : lb.lineEnd + 1 < lb.data.length)
    (hnl : lb.data[lb.lineEnd + 1]? = some '\n')
    (hk : lb.lineEnd + 1 < k) (hk2 : k < lb.data.length)
    (hk3 : lb.data[k]? = some '\n') :
    (lb.nextLine).1 = none := by
  have hget : lb.data[lb.lineEnd + 1] = '\n' := by
    rw [List.getElem?_eq_getElem hlt] at hnl
    injection hnl
  have hcons : lb.data.drop (lb.lineEnd + 1) =
      '\n' :: lb.data.drop (lb.lineEnd + 1 + 1) := by
    rw [List.drop_eq_getElem_cons hlt, hget]
  simp only [LineBuffer.nextLine, hd, Bool.false_eq_true, if_false, hcons,
    idxOf, if_pos rfl]
  rw [if_neg (by omega)]
  simp

theorem c10_next_line_empty_eod_witness : (lbC10.nextLine).1 = none :=
  c10_next_line_empty_eod lbC10 5 (by decide) (by decide) (by decide)
    (by decide) (by decide) (by decide)

/-- One iteration of the searcher's refinement loop on the one-newline
file maps the cycling state to itself. -/
theorem preciseLoop_bufNL_step (T : Int) (fuel : Nat) :
    preciseLoop ("\n").toList defaultOpts T (fuel + 1) 0 bufNL =
      preciseLoop ("\n").toList defaultOpts T fuel 0 bufNL := rfl

theorem preciseLoop_bufNL (T : Int) :
    ∀ fuel, preciseLoop ("\n").toList defaultOpts T fuel 0 bufNL = none
  | 0 => rfl
  | fuel + 1 => (preciseLoop_bufNL_step T fuel).trans (preciseLoop_bufNL T fuel)

/-- C5.  FindPosition does not terminate on the file consisting of a
single newline byte (default configuration, wall-clock mode): ReadLine
at offset 0 isolates the empty line before the newline, NextLine then
reports end-of-buffer without moving lineEnd past 0, so the refinement
loop re-reads offset 0 forever; no amount of fuel produces a result. -/
theorem c5_nontermination (T : Int) (fuel : Nat) :
    FindPosition ("\n").toList defaultOpts T fuel = none := by
  cases fuel with
  | zero => rfl
  | succ f =>
    show (match preciseLoop ("\n").toList defaultOpts (T - defaultOpts.duration)
            f 0 bufNL with
          | none => (none : Option Int)
          | some (.found off lb) => some ((off : Int) + lb.lineStart)
          | some (.eod off lb) => some ((off : Int) + lb.lineStart)) = none
    rw [preciseLoop_bufNL (T - defaultOpts.duration) f]

/-- C1, the coarse/refinement threshold inconsistency behind the
failure.  On the sorted boundary file (line ages D+1, D, D-1 at offsets
0, 32, 64, duration D = 1, reference time T = tTie): the first line is
strictly older than D (T - t = 2 > 1 = D), so under the claim both
phases must place it outside the window and the result must exclude it;
yet the modern FindPosition returns offset 0, the start of that line.
preciseFindTime stops at the first line with fromTime - tm <= D where
fromTime is already the shifted T - D, an effective refinement threshold
of T - tm <= 2D against the coarse phase's T - tm <= D.  The legacy
engine, whose refinement compares against the unshifted reference,
lands at offset 32, the start of the age-D line, excluding the
age-(D+1) line as the claim requires. -/
theorem c1_threshold_bug :
    FindPosition fileTie optsTie tTie 10 = some 0 ∧
    optsTie.parse (sub fileTie 0 31) = some (tTie - 2) ∧
    ¬ (tTie - (tTie - 2) ≤ optsTie.duration) ∧
    legacyParse (sub fileTie 32 63) = some (tTie - 1) ∧
    tfFindPositionCore fileTie tTie 1 10 = some (.ok 32) := by decide

/-- C2, amended.  End-of-data during a coarse probe is consumed
internally and never surfaced as an error, but instead of converging the
upper bound to mid and continuing, FindPosition abandons the binary
search and immediately succeeds with offset 0: (i) a probe that reports
end-of-data makes the coarse loop yield the early-zero outcome;
(ii) FindPosition then returns success with stored offset 0. -/
theorem c2_eof_probe_amended :
    (∀ (file : List Char) (o : SearchOpts) (fromTime : Int) (fuel up down : Nat),
      (o.bufSize : Int) < (down : Int) - (up : Int) →
      findTimeAtOffset file o (fuel + 1) (up + (down - up) / 2) = some none →
      coarseLoop file o fromTime (fuel + 1) up down = some none) ∧
    (∀ (file : List Char) (o : SearchOpts) (wallT : Int) (fuel : Nat),
      file.length ≠ 0 → o.timeFromLastLine = false →
      coarseLoop file o (wallT - o.duration) fuel 0 file.length = some none →
      FindPosition file o wallT fuel = some 0) := by
  constructor
  · intro file o fromTime fuel up down hlt hp
    simp only [coarseLoop, if_pos hlt, hp]
  · intro file o wallT fuel h0 hw hc
    simp only [FindPosition, if_neg h0, hw, Bool.false_eq_true, if_false, hc]

theorem c2_eof_probe_amended_witness :
    coarseLoop fileC2 optsC2 tC2 40 0 121 = some none ∧
    FindPosition fileC2 optsC2 tC2 40 = some 0 :=
  ⟨c2_eof_probe_amended.1 fileC2 optsC2 tC2 39 0 121 (by decide) (by decide),
   c2_eof_probe_amended.2 fileC2 optsC2 tC2 40 (by decide) (by decide)
      (by decide)⟩

/-! Helper lemmas: contiguous slices and tab-free lines. -/

theorem sub_slice (file : List Char) (a k ls le : Nat) :
    sub ((file.drop a).take k) ls le =
      (file.drop (a + ls)).take (min (le - ls) (k - ls)) := by
  unfold sub
  rw [List.drop_take, List.take_take, List.drop_drop]

theorem keyAt_mem_tab {line : List Char} {i : Nat} (h : keyAt line i = true) :
    '\t' ∈ line := by
  have he : (line.drop i).take 11 = tskvKey := of_decide_eq_true h
  have hm : '\t' ∈ (line.drop i).take 11 := by
    rw [he]; decide
  exact List.mem_of_mem_drop (List.mem_of_mem_take hm)

theorem keyAt_false_of_no_tab {line : List Char} (h : '\t' ∉ line) (j : Nat) :
    keyAt line j = false := by
  cases hk : keyAt line j with
  | false => rfl
  | true => exact absurd (keyAt_mem_tab hk) h

theorem tskvMatchAt_keyAt {line : List Char} {i : Nat}
    (h : tskvMatchAt line i = true) : keyAt line i = true := by
  unfold tskvMatchAt at h
  simp only [Bool.and_eq_true] at h
  exact h.1.1.1

theorem tskvMatchAt_false_of_no_tab {line : List Char} (h : '\t' ∉ line)
    (j : Nat) : tskvMatchAt line j = false := by
  cases hk : tskvMatchAt line j with
  | false => rfl
  | true => exact absurd (keyAt_mem_tab (tskvMatchAt_keyAt hk)) h

theorem parseTime_none_of_no_tab {line : List Char} (h : '\t' ∉ line) :
    parseTime line = none := by
  unfold parseTime parseTSKVFast
  rw [findFrom_eq_none _ _ _ (keyAt_false_of_no_tab h)]

theorem legacyParse_none_of_no_tab {line : List Char} (h : '\t' ∉ line) :
    legacyParse line = none := by
  unfold legacyParse legacyMatch
  rw [findFrom_eq_none _ _ _ (tskvMatchAt_false_of_no_tab h)]

theorem no_tab_slice {file : List Char} (h : '\t' ∉ file) (i j : Nat) :
    '\t' ∉ (file.drop i).take j := fun hm =>
  h (List.mem_of_mem_drop (List.mem_of_mem_take hm))

/-- Every successful FindLastLine result is a contiguous slice of the
loaded window. -/
theorem findLastLine_shape (lb : LineBuffer) (file : List Char) (off : Nat)
    (line : List Char) (h : (lb.findLastLine file off).1 = some line) :
    ∃ a b, line = sub ((file.drop off).take lb.data.length) a b := by
  unfold LineBuffer.findLastLine at h
  simp only at h
  split at h
  · cases h
  · split at h
    · cases h
    · rename_i ln hln
      split at h
      · cases h
      · split at h
        · injection h with h
          exact ⟨_, _, h.symm⟩
        · cases h

/-- With a parser that fails on every slice of the file, the backward
last-line scan finds nothing at any offset and any step budget. -/
theorem findLastLineTimeLoop_none (file : List Char) (o : SearchOpts)
    (hp : ∀ i j, o.parse ((file.drop i).take j) = none) :
    ∀ step offset, findLastLineTimeLoop file o offset step = none := by
  intro step
  induction step with
  | zero => intro off; rfl
  | succ n ih =>
    intro off
    unfold findLastLineTimeLoop
    split
    · rfl
    · cases hr : ((LineBuffer.new o.bufSize).findLastLine file off.toNat).1 with
      | none => simp only [hr, ih]
      | some line =>
        obtain ⟨a, b, rfl⟩ := findLastLine_shape _ _ _ _ hr
        have hpn : o.parse (sub ((file.drop off.toNat).take
            (LineBuffer.new o.bufSize).data.length) a b) = none := by
          rw [sub_slice]
          exact hp _ _
        simp only [hr, hpn, ih]

/-- With a window all of whose slices fail the legacy parse, one inner
scan step never produces a timestamp. -/
theorem tfLastLineStep_no_time (w : List Char)
    (hp : ∀ a b, legacyParse ((w.drop a).take b) = none) (ls : Nat)
    (tm : Int) (ls2 : Nat) : tfLastLineStep w ls ≠ some (some tm, ls2) := by
  delta tfLastLineStep
  cases hle : lastIdxOf '\n' (w.take ls) with
  | none => simp
  | some le =>
    dsimp only
    cases hsn : lastIdxOf '\n' (w.take le) with
    | none => simp [hsn]
    | some sn =>
      dsimp only
      cases hm : legacyMatch (sub w (if 0 < sn then sn + 1 else sn) le) with
      | none => simp
      | some cap =>
        dsimp only
        cases hpi : parseISO cap with
        | none => simp
        | some tmx =>
          exfalso
          have hline : legacyParse (sub w (if 0 < sn then sn + 1 else sn) le)
              = none := hp _ _
          have hsome : legacyParse (sub w (if 0 < sn then sn + 1 else sn) le)
              = some tmx := by
            unfold legacyParse
            rw [hm]
            dsimp only
            exact hpi
          exact Option.noConfusion (hline.symm.trans hsome)

/-- Likewise for the whole inner backward scan. -/
theorem tfLastLineInner_none (w : List Char)
    (hp : ∀ a b, legacyParse ((w.drop a).take b) = none) :
    ∀ fuel ls, tfLastLineInner w fuel ls = none := by
  intro fuel
  induction fuel with
  | zero => intro ls; rfl
  | succ n ih =>
    intro ls
    unfold tfLastLineInner
    cases hs : tfLastLineStep w ls with
    | none => rfl
    | some p =>
      obtain ⟨otm, ls2⟩ := p
      cases otm with
      | some tm => exact absurd hs (tfLastLineStep_no_time w hp ls tm ls2)
      | none => exact ih ls2

theorem tfLastLineLoop_none (file : List Char)
    (hpl : ∀ i j, legacyParse ((file.drop i).take j) = none) :
    ∀ step offset, tfLastLineLoop file offset step = none := by
  intro step
  induction step with
  | zero => intro off; rfl
  | succ n ih =>
    intro off
    unfold tfLastLineLoop
    split
    · rfl
    · have hw : ∀ a b, legacyParse
          ((((file.drop off.toNat).take tfBufSize).drop a).take b) = none := by
        intro a b
        have heq : (((file.drop off.toNat).take tfBufSize).drop a).take b =
            sub ((file.drop off.toNat).take tfBufSize) a (a + b) := by
          unfold sub
          rw [Nat.add_sub_cancel_left]
        rw [heq, sub_slice]
        exact hpl _ _
      dsimp only
      rw [tfLastLineInner_none _ hw _ _]
      exact ih _

/-- C3.  In from-last-line mode, when no slice of the file parses to a
timestamp (in particular when the file contains no timestamp at all),
both engines return success with result offset 0: the searcher and the
legacy TFile degrade to copying the whole file rather than erroring. -/
theorem c3_steps_limit_degradation (file : List Char) (o : SearchOpts)
    (hll : o.timeFromLastLine = true)
    (hp : ∀ i j, o.parse ((file.drop i).take j) = none)
    (hpl : ∀ i j, legacyParse ((file.drop i).take j) = none)
    (wallT dur : Int) (fuel fuel2 : Nat) :
    FindPosition file o wallT fuel = some 0 ∧
    tfFindPositionLast file dur fuel2 = some (.ok 0) := by
  constructor
  · have h1 := findLastLineTimeLoop_none file o hp o.stepsLimit
    unfold FindPosition findLastLineTime
    dsimp only
    rw [hll]
    by_cases hsz : file.length = 0
    · rw [if_pos hsz]
    · rw [if_neg hsz, h1]
      rfl
  · unfold tfFindPositionLast tfLastLineTime
    rw [tfLastLineLoop_none file hpl _ _]

/-- C7, amended.  When read_line_at has established a line start (window
anchored at offset 0) and finds no terminating newline in the loaded
bytes, it grows the buffer once by one window size, appending the bytes
read from offset + previously_loaded_length, and — if there is still no
newline — returns the partial, newline-less remainder (the first
2×window bytes of the file) as a best-effort line rather than failing;
the 4×-cap guard in the code can never bind because growth happens at
most once. -/
theorem c7_growth_amended (file : List Char) (bufSize : Nat)
    (hb : 0 < bufSize) (hne : file ≠ [])
    (hnl : '\n' ∉ file.take (2 * bufSize)) :
    ((LineBuffer.new bufSize).readLine file 0).1 =
      some (file.take (2 * bufSize)) := by
  have hfl : 0 < file.length := List.length_pos.mpr hne
  have hmem : ∀ n, n ≤ 2 * bufSize → '\n' ∉ file.take n := by
    intro n hn hm
    apply hnl
    have ht : file.take n = (file.take (2 * bufSize)).take n := by
      rw [List.take_take, Nat.min_eq_left hn]
    rw [ht] at hm
    exact List.mem_of_mem_take hm
  have h0 : idxOf '\n' (file.take bufSize) = none :=
    (idxOf_eq_none _ _).mpr (hmem bufSize (by omega))
  have h1 : idxOf '\n' (file.take (2 * bufSize)) = none :=
    (idxOf_eq_none _ _).mpr hnl
  have hlen : (file.take bufSize).length = min bufSize file.length :=
    List.length_take _ _
  have hlen0 : ¬ (file.take bufSize).length = 0 := by
    rw [hlen]
    have := Nat.lt_min.mpr ⟨hb, hfl⟩
    omega
  have hdata1 : file.take bufSize ++
      (file.drop (file.take bufSize).length).take bufSize =
      file.take (2 * bufSize) := by
    rcases Nat.le_total file.length bufSize with hle | hle
    · rw [List.take_of_length_le hle, List.drop_length, List.take_nil,
        List.append_nil, List.take_of_length_le (by omega)]
    · rw [List.length_take, Nat.min_eq_left hle, Nat.two_mul, List.take_add]
  unfold LineBuffer.readLine
  simp only [LineBuffer.new, List.drop_zero, hlen0, if_false, if_pos rfl,
    if_true, Nat.zero_add, h0, hdata1, h1, Nat.sub_zero]
  rw [if_pos (show (file.take bufSize).length < bufSize * 4 by rw [hlen]; omega)]
  have hl2 : 0 < (file.take (2 * bufSize)).length := by
    rw [List.length_take]
    have := Nat.lt_min.mpr ⟨(show 0 < 2 * bufSize by omega), hfl⟩
    omega
  rw [if_pos hl2]
  simp only [sub, List.drop_zero, Nat.sub_zero, List.take_length]

theorem c7_growth_amended_witness :
    ((LineBuffer.new 2).readLine (List.replicate 5 'a') 0).1 =
      some ((List.replicate 5 'a').take (2 * 2)) :=
  c7_growth_amended (List.replicate 5 'a') 2 (by decide) (by decide) (by decide)

/-! Last-newline index lemmas for the FindLastLine characterisation. -/

theorem idxOf_append_of_not_mem (c : Char) (xs ys : List Char) (h : c ∉ xs) :
    idxOf c (xs ++ ys) = (idxOf c ys).map (· + xs.length) := by
  induction xs with
  | nil =>
    cases ho : idxOf c ys with
    | none => simp [ho]
    | some k => simp [ho]
  | cons a as ih =>
    have ha : ¬ a = c := fun hac => h (by rw [hac]; exact List.mem_cons_self _ _)
    have has : c ∉ as := fun hm => h (List.mem_cons_of_mem _ hm)
    cases ho : idxOf c ys with
    | none => simp [List.cons_append, idxOf, ha, ih has, ho]
    | some k => simp [List.cons_append, idxOf, ha, ih has, ho, Nat.add_assoc]

theorem lastIdxOf_eq_none (c : Char) (l : List Char) :
    lastIdxOf c l = none ↔ c ∉ l := by
  unfold lastIdxOf
  rw [Option.map_eq_none', idxOf_eq_none, List.mem_reverse]

/-- The last newline of a ++ '\n' :: b sits at index a.length when b is
newline-free. -/
theorem lastIdxOf_last (a b : List Char) (hb : '\n' ∉ b) :
    lastIdxOf '\n' (a ++ '\n' :: b) = some a.length := by
  unfold lastIdxOf
  rw [List.reverse_append, List.reverse_cons, List.append_assoc,
    List.singleton_append,
    idxOf_append_of_not_mem _ _ _ (by rw [List.mem_reverse]; exact hb)]
  have h0 : idxOf '\n' ('\n' :: a.reverse) = some 0 := by simp [idxOf]
  rw [h0]
  simp only [Option.map_some']
  congr 1
  simp only [List.length_append, List.length_cons, List.length_reverse,
    Nat.zero_add]
  omega

theorem findFrom_intro (p : Nat → Bool) :
    ∀ (fuel i k : Nat), i ≤ k → k < i + fuel → p k = true →
      (∀ j, i ≤ j → j < k → p j = false) → findFrom p fuel i = some k := by
  intro fuel
  induction fuel with
  | zero =>
    intro i k h1 h2 _ _
    exact absurd h2 (by omega)
  | succ n ih =>
    intro i k h1 h2 hk hmin
    unfold findFrom
    by_cases hik : i = k
    · subst hik
      simp [hk]
    · have hfi : p i = false := hmin i le_rfl (by omega)
      simp only [hfi, Bool.false_eq_true, if_false]
      exact ih (i + 1) k (by omega) (by omega) hk
        (fun j hj1 hj2 => hmin j (by omega) hj2)

theorem findFrom_none (p : Nat → Bool) :
    ∀ (fuel i : Nat), findFrom p fuel i = none →
      ∀ j, i ≤ j → j < i + fuel → p j = false := by
  intro fuel
  induction fuel with
  | zero =>
    intro i _ j h1 h2
    exact absurd h2 (by omega)
  | succ n ih =>
    intro i h j h1 h2
    unfold findFrom at h
    by_cases hpi : p i = true
    · simp [hpi] at h
    · by_cases hij : j = i
      · subst hij
        exact Bool.eq_false_iff.mpr hpi
      · exact ih (i + 1) (by simpa [hpi] using h) j (by omega) (by omega)

theorem keyAt_bound {line : List Char} {i : Nat} (h : keyAt line i = true) :
    i + 11 ≤ line.length := by
  have he : (line.drop i).take 11 = tskvKey := of_decide_eq_true h
  have hlen : ((line.drop i).take 11).length = 11 := by rw [he]; rfl
  rw [List.length_take, List.length_drop] at hlen
  omega

theorem parseISO_shape (s : List Char) (t : Int) (h : parseISO s = some t) :
    shapeISO s = true := by
  unfold parseISO at h
  by_cases hs : shapeISO s = true
  · exact hs
  · rw [if_neg hs] at h
    cases h

/-- C9, amended.  The literal fast path agrees with the general regex
path on every line containing at most one occurrence of the key
(tab + "timestamp="); the two can only differ when an earlier key
occurrence without a well-formed stamp hides a later well-formed one
(c9_counterexample). -/
theorem c9_fast_path_amended (line : List Char)
    (h : ∀ i, i < line.length → ∀ j, j < line.length →
      keyAt line i = true → keyAt line j = true → i = j) :
    parseTSKVFast line = parseTimeGeneral line := by
  unfold parseTSKVFast parseTimeGeneral
  cases hf : findFrom (keyAt line) (line.length + 1) 0 with
  | none =>
    have hnk : ∀ j, keyAt line j = false := by
      intro j
      by_cases hj : j < line.length + 1
      · exact findFrom_none _ _ _ hf j (Nat.zero_le _) (by omega)
      · cases hk : keyAt line j with
        | false => rfl
        | true => exact absurd (keyAt_bound hk) (by omega)
    have hnm : ∀ j, tskvMatchAt line j = false := by
      intro j
      cases hm : tskvMatchAt line j with
      | false => rfl
      | true =>
        have := tskvMatchAt_keyAt hm
        rw [hnk j] at this
        cases this
    rw [findFrom_eq_none _ _ _ hnm]
  | some i =>
    obtain ⟨hki, _⟩ := findFrom_some _ _ _ _ hf
    have hibound : i + 11 ≤ line.length := keyAt_bound hki
    have huniq : ∀ j, keyAt line j = true → j = i := by
      intro j hkj
      have hjb : j + 11 ≤ line.length := keyAt_bound hkj
      exact h j (by omega) i (by omega) hkj hki
    dsimp only
    have h30 : i + 11 + 19 = i + 30 := by omega
    rw [h30]
    cases hm : tskvMatchAt line i with
    | true =>
      have hg : findFrom (tskvMatchAt line) (line.length + 1) 0 = some i := by
        apply findFrom_intro _ _ 0 i (Nat.zero_le i) (by omega) hm
        intro j _ hji
        cases hmj : tskvMatchAt line j with
        | false => rfl
        | true =>
          have := huniq j (tskvMatchAt_keyAt hmj)
          omega
      rw [hg]
      have hdec := hm
      unfold tskvMatchAt at hdec
      simp only [Bool.and_eq_true, decide_eq_true_eq] at hdec
      obtain ⟨⟨⟨_, _⟩, htab⟩, hlt⟩ := hdec
      rw [if_neg (by omega), if_neg (by omega), if_neg (by simp [htab])]
    | false =>
      have hnm : ∀ j, tskvMatchAt line j = false := by
        intro j
        cases hmj : tskvMatchAt line j with
        | false => rfl
        | true =>
          have hji := huniq j (tskvMatchAt_keyAt hmj)
          subst hji
          rw [hm] at hmj
          cases hmj
      rw [findFrom_eq_none _ _ _ hnm]
      by_cases hb1 : i + 30 > line.length
      · rw [if_pos hb1]
      · rw [if_neg hb1]
        by_cases hb2 : i + 30 ≥ line.length
        · rw [if_pos hb2]
        · rw [if_neg hb2]
          by_cases hb3 : chAt line (i + 30) ≠ '\t'
          · rw [if_pos hb3]
          · rw [if_neg hb3]
            have hshape : shapeISO ((line.drop (i + 11)).take 19) = false := by
              cases hs : shapeISO ((line.drop (i + 11)).take 19) with
              | false => rfl
              | true =>
                exfalso
                have hmt : tskvMatchAt line i = true := by
                  unfold tskvMatchAt
                  simp only [Bool.and_eq_true, decide_eq_true_eq]
                  exact ⟨⟨⟨hki, hs⟩, by
                    have := not_not.mp (by simpa using hb3)
                    simpa using this⟩, by omega⟩
                rw [hm] at hmt
                cases hmt
            cases hpi : parseISO ((line.drop (i + 11)).take 19) with
            | none => rfl
            | some t =>
              have := parseISO_shape _ _ hpi
              rw [hshape] at this
              cases this

theorem c9_fast_path_amended_witness :
    parseTSKVFast lineC9W = parseTimeGeneral lineC9W :=
  c9_fast_path_amended lineC9W (by decide)

/-- C8, amended.  FindLastLine on a window loaded at the offset returns
the bytes between the second-to-last and the last newline when the
window holds at least two newlines (EndOfData when that span is empty);
when the window holds exactly one newline at a positive index it does
not report EndOfData but returns the bytes from the window start to that
newline; with no newline (or a sole newline at index 0) it reports
EndOfData. -/
theorem c8_find_last_line_amended (a b : List Char) (bufSize : Nat)
    (ha : '\n' ∉ a) (hb : '\n' ∉ b)
    (hfit : a.length + b.length + 2 ≤ bufSize) :
    (((LineBuffer.new bufSize).findLastLine (a ++ '\n' :: (b ++ ['\n'])) 0).1 =
        if b = [] then none else some b) ∧
    (a ≠ [] → ((LineBuffer.new bufSize).findLastLine (a ++ ['\n']) 0).1 = some a) ∧
    ((LineBuffer.new bufSize).findLastLine a 0).1 = none := by
  have hl1 : (a ++ '\n' :: (b ++ ['\n'])).length = a.length + b.length + 2 := by
    simp only [List.length_append, List.length_cons, List.length_nil]
    omega
  have hl2 : (a ++ ['\n']).length = a.length + 1 := by
    simp only [List.length_append, List.length_cons, List.length_nil]
  have hl3 : (a ++ '\n' :: b).length = a.length + b.length + 1 := by
    simp only [List.length_append, List.length_cons]
    omega
  refine ⟨?_, ?_, ?_⟩
  · unfold LineBuffer.findLastLine
    simp only [LineBuffer.new, List.drop_zero, List.length_replicate]
    rw [List.take_of_length_le (by rw [hl1]; omega)]
    rw [if_neg (by rw [hl1]; omega)]
    have hsplit : a ++ '\n' :: (b ++ ['\n']) = (a ++ '\n' :: b) ++ '\n' :: [] := by
      simp
    rw [hsplit, lastIdxOf_last _ _ (by simp)]
    dsimp only
    rw [if_neg (by rw [hl3]; omega)]
    rw [List.take_left, lastIdxOf_last a b hb]
    dsimp only
    by_cases hb0 : b = []
    · subst hb0
      rw [if_neg (by rw [hl3]; simp)]
      rw [if_pos rfl]
    · have hbl : 0 < b.length := List.length_pos.mpr hb0
      rw [if_pos (by rw [hl3]; omega)]
      rw [if_neg hb0]
      dsimp only
      congr 1
      have hre : (a ++ '\n' :: b) ++ '\n' :: [] = (a ++ ['\n']) ++ (b ++ ['\n']) := by
        simp
      rw [sub, hre]
      rw [show a.length + 1 = (a ++ ['\n']).length by rw [hl2]]
      rw [List.drop_left]
      rw [show (a ++ '\n' :: b).length - (a ++ ['\n']).length = b.length by
            rw [hl2, hl3]; omega]
      exact List.take_left b ['\n']
  · intro ha0
    have hla : 0 < a.length := List.length_pos.mpr ha0
    unfold LineBuffer.findLastLine
    simp only [LineBuffer.new, List.drop_zero, List.length_replicate]
    rw [List.take_of_length_le (by rw [hl2]; omega)]
    rw [if_neg (by rw [hl2]; omega)]
    rw [lastIdxOf_last a [] (by simp)]
    dsimp only
    rw [if_neg (by omega)]
    rw [List.take_left, (lastIdxOf_eq_none '\n' a).mpr ha]
    dsimp only
    rw [if_pos hla]
    dsimp only
    congr 1
    rw [sub, List.drop_zero, Nat.sub_zero]
    exact List.take_left a ['\n']
  · unfold LineBuffer.findLastLine
    simp only [LineBuffer.new, List.drop_zero, List.length_replicate]
    rw [List.take_of_length_le (by omega)]
    by_cases ha0 : a = []
    · subst ha0
      rfl
    · rw [if_neg (fun h => ha0 (List.length_eq_zero.mp h))]
      rw [(lastIdxOf_eq_none '\n' a).mpr ha]

/-- Post-state of ReadLine: the window size is preserved, lineEnd stays
inside the loaded data, the loaded data fits in the file tail, a
returned line comes with a non-negative lineStart at or before lineEnd,
and an end-of-data result leaves either the -1 sentinel (only possible
at a positive offset unless the file is empty) or a positive lineStart
at or before lineEnd. -/
theorem readLine_spec (lb : LineBuffer) (file : List Char) (off : Nat)
    (hb : 0 < lb.bufSize) (res : Option (List Char)) (b : LineBuffer)
    (h : lb.readLine file off = (res, b)) :
    b.bufSize = lb.bufSize ∧ b.lineEnd ≤ b.data.length ∧
    b.data.length ≤ file.length - off ∧
    (∀ line, res = some line → ∃ ls : Nat, b.lineStart = (ls : Int) ∧
      ls ≤ b.lineEnd ∧ b.discard = false) ∧
    (res = none →
      (b.lineStart = -1 ∧ b.lineEnd = 0 ∧ (off = 0 → file.length = 0)) ∨
      (∃ ls : Nat, b.lineStart = (ls : Int) ∧ 1 ≤ ls ∧ ls ≤ b.lineEnd)) := by
  have hdlen : ((file.drop off).take lb.bufSize).length ≤ file.length - off := by
    rw [List.length_take, List.length_drop]
    omega
  unfold LineBuffer.readLine at h
  dsimp only at h
  split at h
  · -- n = 0
    rename_i hn0
    injection h with h1 h2
    subst h1 h2
    refine ⟨rfl, by exact Nat.le_refl 0, by simp, ?_, ?_⟩
    · intro line hl; cases hl
    · intro _
      left
      refine ⟨rfl, rfl, ?_⟩
      intro h0
      subst h0
      rw [List.drop_zero, List.length_take] at hn0
      omega
  · rename_i hn0
    split at h
    · -- lsOpt = none: off > 0, no newline in the window
      rename_i hls
      injection h with h1 h2
      subst h1 h2
      refine ⟨rfl, by simp, hdlen, ?_, ?_⟩
      · intro line hl; cases hl
      · intro _
        left
        refine ⟨rfl, rfl, ?_⟩
        intro h0
        rw [if_pos h0] at hls
        cases hls
    · rename_i ls hls
      have hls' : ls ≤ ((file.drop off).take lb.bufSize).length ∧
          (off ≠ 0 → 1 ≤ ls) := by
        by_cases h0 : off = 0
        · rw [if_pos h0] at hls
          injection hls with hls
          subst hls
          exact ⟨Nat.zero_le _, fun hc => absurd h0 hc⟩
        · rw [if_neg h0] at hls
          cases hfn : idxOf '\n' ((file.drop off).take lb.bufSize) with
          | none => rw [hfn] at hls; cases hls
          | some fn =>
            rw [hfn] at hls
            injection hls with hls
            subst hls
            have := idxOf_lt_length _ _ _ hfn
            exact ⟨by omega, fun _ => by omega⟩
      split at h
      · -- newline found directly
        rename_i cur hcur
        injection h with h1 h2
        subst h1 h2
        have hcl := idxOf_lt_length _ _ _ hcur
        rw [List.length_drop] at hcl
        refine ⟨rfl, by dsimp only; omega, hdlen, ?_, ?_⟩
        · intro line _
          exact ⟨ls, rfl, by dsimp only; omega, rfl⟩
        · intro hc; cases hc
      · -- no newline yet: extension
        rename_i hcur
        have hext : ((file.drop off).take lb.bufSize ++
            (file.drop (off + ((file.drop off).take lb.bufSize).length)).take
              lb.bufSize).length ≤ file.length - off := by
          rw [List.length_append, List.length_take, List.length_drop,
            List.length_take, List.length_drop]
          omega
        split at h
        · -- extension performed (always, since n ≤ bufSize < 4·bufSize)
          split at h
          · -- newline found after extension
            rename_i cur hcur2
            injection h with h1 h2
            subst h1 h2
            have hcl := idxOf_lt_length _ _ _ hcur2
            rw [List.length_drop] at hcl
            refine ⟨rfl, by dsimp only; omega, hext, ?_, ?_⟩
            · intro line _
              exact ⟨ls, rfl, by dsimp only; omega, rfl⟩
            · intro hc; cases hc
          · -- still no newline: best-effort remainder or empty tail
            rename_i hcur2
            split at h
            · rename_i hlt
              injection h with h1 h2
              subst h1 h2
              refine ⟨rfl, by simp, hext, ?_, ?_⟩
              · intro line _
                exact ⟨ls, rfl, by dsimp only; omega, rfl⟩
              · intro hc; cases hc
            · rename_i hge
              injection h with h1 h2
              subst h1 h2
              refine ⟨rfl, by simp, hext, ?_, ?_⟩
              · intro line hl; cases hl
              · intro _
                right
                have hls1 : 1 ≤ ls := by
                  rcases Nat.eq_zero_or_pos ls with h0 | h1
                  · exfalso
                    subst h0
                    apply hge
                    simp only [List.length_append]
                    omega
                  · exact h1
                exact ⟨ls, rfl, hls1,
                  by dsimp only; simp only [List.length_append]; omega⟩
        · -- 4×-cap branch: unreachable since the window fits once
          rename_i hcap
          exfalso
          apply hcap
          rw [List.length_take]
          omega

/-- Post-state of NextLine: data, discard and window size are untouched;
an end-of-buffer result keeps lineEnd; a returned line advances
lineStart past the old lineEnd and keeps lineEnd inside the data. -/
theorem nextLine_spec (lb : LineBuffer) (res : Option (List Char))
    (b : LineBuffer) (h : lb.nextLine = (res, b)) :
    b.data = lb.data ∧ b.discard = lb.discard ∧ b.bufSize = lb.bufSize ∧
    (res = none → b.lineEnd = lb.lineEnd) ∧
    (∀ line, res = some line → lb.discard = false ∧
      ∃ ls : Nat, b.lineStart = (ls : Int) ∧ 0 < ls ∧ ls ≤ b.lineEnd ∧
        b.lineEnd < lb.data.length) := by
  unfold LineBuffer.nextLine at h
  dsimp only at h
  split at h
  · rename_i hd
    injection h with h1 h2
    subst h1 h2
    exact ⟨rfl, rfl, rfl, fun _ => rfl, fun line hl => by cases hl⟩
  · rename_i hd
    split at h
    · injection h with h1 h2
      subst h1 h2
      exact ⟨rfl, rfl, rfl, fun _ => rfl, fun line hl => by cases hl⟩
    · rename_i hge
      split at h
      · rename_i cur hcur
        split at h
        · rename_i hcpos
          injection h with h1 h2
          subst h1 h2
          have hcl := idxOf_lt_length _ _ _ hcur
          rw [List.length_drop] at hcl
          refine ⟨rfl, rfl, rfl, ?_, ?_⟩
          · intro hc; cases hc
          · intro line _
            refine ⟨by simpa using hd, ?_⟩
            exact ⟨lb.lineEnd + 1, rfl, by omega, by dsimp only; omega,
              by dsimp only; omega⟩
        · injection h with h1 h2
          subst h1 h2
          exact ⟨rfl, rfl, rfl, fun _ => rfl, fun line hl => by cases hl⟩
      · injection h with h1 h2
        subst h1 h2
        exact ⟨rfl, rfl, rfl, fun _ => rfl, fun line hl => by cases hl⟩

/-- Invariant of preciseFindTime: starting from any offset within the
file with a buffer whose cursors are consistent with the bytes loaded at
that offset (or a freshly reset buffer), every terminating run stops at
a position offset + lineStart inside [0, size]. -/
theorem preciseLoop_bounds (file : List Char) (o : SearchOpts) (ft : Int)
    (hb : 0 < o.bufSize) (hsz : 0 < file.length) :
    ∀ fuel off lb r, off ≤ file.length → lb.bufSize = o.bufSize →
      (lb.discard = true → lb.lineEnd = 0) →
      (lb.discard = false → off + lb.data.length ≤ file.length ∧
        lb.lineEnd ≤ lb.data.length) →
      preciseLoop file o ft fuel off lb = some r →
      0 ≤ ((PreciseOut.offv r : Int) + (PreciseOut.bufv r).lineStart) ∧
      ((PreciseOut.offv r : Int) + (PreciseOut.bufv r).lineStart) ≤
        (file.length : Int) := by
  intro fuel
  induction fuel with
  | zero => intro off lb r _ _ _ _ hr; cases hr
  | succ fuel ih =>
    intro off lb r hoff hbs hd3 hd4 hr
    unfold preciseLoop at hr
    dsimp only at hr
    rcases hnext : lb.nextLine with ⟨nres, nb⟩
    rw [hnext] at hr
    dsimp only at hr
    obtain ⟨hnd, hndis, hnbs, hnn, hns⟩ := nextLine_spec lb nres nb hnext
    cases nres with
    | some line =>
      dsimp only at hr
      cases hp : o.parse line with
      | some tm =>
        rw [hp] at hr
        dsimp only at hr
        split at hr
        · injection hr with hr1
          subst hr1
          dsimp only [PreciseOut.offv, PreciseOut.bufv]
          rcases hns line rfl with ⟨hdisc, ls, hl1, hl2, hl3, hl4⟩
          obtain ⟨hA, _⟩ := hd4 hdisc
          rw [hl1]
          omega
        · rcases hns line rfl with ⟨hdisc, ls, hl1, hl2, hl3, hl4⟩
          exact ih off nb r hoff (hnbs.trans hbs)
            (fun hc => by rw [hndis, hdisc] at hc; exact Bool.noConfusion hc)
            (fun _ => ⟨by rw [hnd]; exact (hd4 hdisc).1, by rw [hnd]; omega⟩)
            hr
      | none =>
        rw [hp] at hr
        dsimp only at hr
        rcases hns line rfl with ⟨hdisc, ls, hl1, hl2, hl3, hl4⟩
        exact ih off nb r hoff (hnbs.trans hbs)
          (fun hc => by rw [hndis, hdisc] at hc; exact Bool.noConfusion hc)
          (fun _ => ⟨by rw [hnd]; exact (hd4 hdisc).1, by rw [hnd]; omega⟩)
          hr
    | none =>
      dsimp only at hr
      have hle : nb.lineEnd = lb.lineEnd := hnn rfl
      have hoff2 : off + nb.lineEnd ≤ file.length := by
        cases hdis : lb.discard with
        | true => have := hd3 hdis; omega
        | false => obtain ⟨h1, h2⟩ := hd4 hdis; omega
      rcases hread : nb.readLine file (off + nb.lineEnd) with ⟨rres, rb⟩
      rw [hread] at hr
      dsimp only at hr
      obtain ⟨hrb1, hrb2, hrb3, hrb4, hrb5⟩ :=
        readLine_spec nb file (off + nb.lineEnd)
          (by rw [hnbs, hbs]; exact hb) rres rb hread
      cases rres with
      | none =>
        injection hr with hr1
        subst hr1
        dsimp only [PreciseOut.offv, PreciseOut.bufv]
        rcases hrb5 rfl with ⟨hm1, hm2, hm3⟩ | ⟨ls, hl1, hl2, hl3⟩
        · rw [hm1]
          have h0 : ¬ off + nb.lineEnd = 0 := fun hc => by
            have := hm3 hc; omega
          omega
        · rw [hl1]
          omega
      | some line =>
        dsimp only at hr
        cases hp : o.parse line with
        | some tm =>
          rw [hp] at hr
          dsimp only at hr
          split at hr
          · injection hr with hr1
            subst hr1
            dsimp only [PreciseOut.offv, PreciseOut.bufv]
            rcases hrb4 line rfl with ⟨ls, hl1, hl2, hdisc⟩
            rw [hl1]
            omega
          · rcases hrb4 line rfl with ⟨ls, hl1, hl2, hdisc⟩
            exact ih (off + nb.lineEnd) rb r hoff2
              (hrb1.trans (hnbs.trans hbs))
              (fun hc => by rw [hdisc] at hc; exact Bool.noConfusion hc)
              (fun _ => ⟨by omega, hrb2⟩) hr
        | none =>
          rw [hp] at hr
          dsimp only at hr
          rcases hrb4 line rfl with ⟨ls, hl1, hl2, hdisc⟩
          exact ih (off + nb.lineEnd) rb r hoff2
            (hrb1.trans (hnbs.trans hbs))
            (fun hc => by rw [hdisc] at hc; exact Bool.noConfusion hc)
            (fun _ => ⟨by omega, hrb2⟩) hr

/-- The coarse loop keeps its bounds inside the file: a converged lower
bound never exceeds the file size. -/
theorem coarseLoop_conv (file : List Char) (o : SearchOpts) (ft : Int) :
    ∀ fuel up down r, up ≤ down → down ≤ file.length →
      coarseLoop file o ft fuel up down = some r →
      r = none ∨ ∃ u, r = some u ∧ u ≤ file.length := by
  intro fuel
  induction fuel with
  | zero => intro up down r _ _ hr; cases hr
  | succ fuel ih =>
    intro up down r hud hdf hr
    unfold coarseLoop at hr
    split at hr
    · dsimp only at hr
      cases hfa : findTimeAtOffset file o (fuel + 1) (up + (down - up) / 2) with
      | none => rw [hfa] at hr; cases hr
      | some v =>
        rw [hfa] at hr
        cases v with
        | none =>
          dsimp only at hr
          injection hr with hr1
          subst hr1
          exact Or.inl rfl
        | some tm =>
          dsimp only at hr
          split at hr
          · exact ih _ down r (by omega) hdf hr
          · exact ih up _ r (by omega) (by omega) hr
    · injection hr with hr1
      subst hr1
      exact Or.inr ⟨up, rfl, by omega⟩

/-- The phase of FindPosition after the reference time is fixed: any
success lands in [0, size]. -/
theorem findPositionTail_bounds (file : List Char) (o : SearchOpts)
    (fromTime : Int) (fuel : Nat) (r : Int) (hb : 0 < o.bufSize)
    (hszp : 0 < file.length)
    (h : (match coarseLoop file o fromTime fuel 0 file.length with
          | none => none
          | some none => some 0
          | some (some up) =>
            match preciseLoop file o fromTime fuel up
                ((LineBuffer.new o.bufSize).reset) with
            | none => none
            | some (.found off lb) => some ((off : Int) + lb.lineStart)
            | some (.eod off lb) => some ((off : Int) + lb.lineStart)) =
        some r) :
    0 ≤ r ∧ r ≤ (file.length : Int) := by
  cases hc : coarseLoop file o fromTime fuel 0 file.length with
  | none => rw [hc] at h; cases h
  | some v =>
    rw [hc] at h
    cases v with
    | none =>
      dsimp only at h
      injection h with h1
      subst h1
      omega
    | some up =>
      dsimp only at h
      have hcc := coarseLoop_conv file o fromTime fuel 0 file.length
        (some up) (Nat.zero_le _) (Nat.le_refl _) hc
      have hup : up ≤ file.length := by
        rcases hcc with hcc | ⟨u, hu1, hu2⟩
        · cases hcc
        · injection hu1 with hu1; omega
      cases hp : preciseLoop file o fromTime fuel up
          ((LineBuffer.new o.bufSize).reset) with
      | none => rw [hp] at h; cases h
      | some pr =>
        rw [hp] at h
        have hbd := preciseLoop_bounds file o fromTime hb hszp fuel up
          ((LineBuffer.new o.bufSize).reset) pr hup rfl (fun _ => rfl)
          (fun hc2 => Bool.noConfusion hc2) hp
        cases pr with
        | found off lb =>
          dsimp only at h
          injection h with h1
          subst h1
          dsimp only [PreciseOut.offv, PreciseOut.bufv] at hbd
          exact hbd
        | eod off lb =>
          dsimp only at h
          injection h with h1
          subst h1
          dsimp only [PreciseOut.offv, PreciseOut.bufv] at hbd
          exact hbd

/-- C6: on every success of TimeSearcher.FindPosition the stored offset r
satisfies 0 ≤ r ≤ file size — even though the final refinement adds the
buffer's lineStart cursor (sentinel -1) to the converged offset — and the
searcher's offset field starts at the Go zero value 0. -/
theorem c6_offset_in_range (file : List Char) (o : SearchOpts)
    (wallT : Int) (fuel : Nat) (r : Int) (hb : 0 < o.bufSize)
    (h : FindPosition file o wallT fuel = some r) :
    searcherInitOffset = 0 ∧ 0 ≤ r ∧ r ≤ (file.length : Int) := by
  refine ⟨rfl, ?_⟩
  unfold FindPosition at h
  dsimp only at h
  by_cases hsz : file.length = 0
  · rw [if_pos hsz] at h
    injection h with h1
    subst h1
    omega
  · rw [if_neg hsz] at h
    have hszp : 0 < file.length := Nat.pos_of_ne_zero hsz
    split at h
    · -- no reference time: return the zero offset
      injection h with h1
      subst h1
      omega
    · -- reference time fixed: coarse then precise phase
      exact findPositionTail_bounds file o _ fuel r hb hszp h

theorem c6_offset_in_range_witness :
    searcherInitOffset = 0 ∧ (0 : Int) ≤ 0 ∧
      (0 : Int) ≤ (fileC6W.length : Int) :=
  c6_offset_in_range fileC6W optsC6W tRef 10 0 (by decide) (by decide)

theorem c8_find_last_line_amended_witness :
    (((LineBuffer.new 16).findLastLine
        (("ab").toList ++ '\n' :: (("cd").toList ++ ['\n'])) 0).1 =
      if ("cd").toList = [] then none else some ("cd").toList) ∧
    (("ab").toList ≠ [] →
      ((LineBuffer.new 16).findLastLine (("ab").toList ++ ['\n']) 0).1 =
        some ("ab").toList) ∧
    ((LineBuffer.new 16).findLastLine ("ab").toList 0).1 = none :=
  c8_find_last_line_amended ("ab").toList ("cd").toList 16
    (by decide) (by decide) (by decide)

theorem c3_steps_limit_degradation_witness :
    FindPosition fileJunk optsJunk 0 20 = some 0 ∧
    tfFindPositionLast fileJunk 5 20 = some (.ok 0) :=
  c3_steps_limit_degradation fileJunk optsJunk rfl
    (fun i j => parseTime_none_of_no_tab
      (no_tab_slice (by decide) i j))
    (fun i j => legacyParse_none_of_no_tab
      (no_tab_slice (by decide) i j))
    0 5 20 20

end TT
